import Mathlib

/-!
Verification of the HomebrewNLP-Jax training core against its specification.

The development shallowly embeds the relevant parts of `src/model.py`,
`src/backend.py` and `src/utils/wandblog.py`:

- tensors under exact arithmetic are values of an additive commutative group,
  rationals, or finitely indexed families of rationals;
- the custom-gradient pairs (`reversible`, `psum_scatter`, `revnet_out`) are
  embedded as explicit forward functions plus explicit backward rules;
- the streaming monitor is a pure state-transition function on its three
  sliding windows, with python slicing semantics reproduced exactly.
-/

set_option linter.unusedVariables false

/-- Reversible rail state threaded through `reversible` in `model.py`
(`REVERSIBLE_CTX`): the parameter dictionary plus the tuple
`(x0, back_x0, x1, back_x1)` of two rails and their backup copies. -/
structure RevState (P G : Type) where
  params : P
  x0 : G
  back_x0 : G
  x1 : G
  back_x1 : G
deriving DecidableEq

/-- Executing-mode forward step of `reversible`: `out = base(params, x1) + x0`
and the returned tuple is `(params, x1, x1, out, out)`. -/
def reversible_fwd {P G : Type} [AddCommGroup G] (f : G → G) (s : RevState P G) :
    RevState P G :=
  ⟨s.params, s.x1, s.x1, f s.x1 + s.x0, f s.x1 + s.x0⟩

/-- Backward rule `_grad` of `reversible`.  The incoming tuple
`(d_params_old, dy0, y0, dy1, y1)` is a `RevState` whose `back_x0` slot carries
the value `y0` and whose `back_x1` slot carries the value `y1`; the code
recomputes `x0 = base(params, y0)` and returns
`(d_params_old + d_params, dy1, y1 - x0, dx0 + dy0, y0)`.  The two components
of `jax.vjp(base, params, y0)` applied to `dy1` are abstracted as `vjp_params`
and `vjp_x` (functions of `y0` and `dy1`), and gradient-dictionary accumulation
as `acc`. -/
def reversible_grad {P G : Type} [AddCommGroup G] (f : G → G)
    (vjp_params : G → G → P) (vjp_x : G → G → G) (acc : P → P → P)
    (dy : RevState P G) : RevState P G :=
  ⟨acc dy.params (vjp_params dy.back_x0 dy.x1),
    dy.x1,
    dy.back_x1 - f dy.back_x0,
    vjp_x dy.back_x0 dy.x1 + dy.x0,
    dy.back_x0⟩

/-- Sequential composition of executing-mode reversible steps over a list of
block functions, as the scanned `block` loop of `body_ctx` performs. -/
def reversible_seq {P G : Type} [AddCommGroup G] (fs : List (G → G))
    (s : RevState P G) : RevState P G :=
  fs.foldl (fun acc f => reversible_fwd f acc) s

/-- Forward of `revnet_out`: the sum of the two rails. -/
def revnet_out {G : Type} [AddCommGroup G] (x0 back_x0 x1 back_x1 : G) : G :=
  x0 + x1

/-- Backward rule of `revnet_out`: `_grad(dy)` returns `(dy, x0, dy, x1)`. -/
def revnet_out_grad {G : Type} [AddCommGroup G] (x0 back_x0 x1 back_x1 : G)
    (dy : G) : G × G × G × G :=
  (dy, x0, dy, x1)

/-- `momentumnet_main` from `model.py`: wraps a block function `fn`, feeding it
the rail value rescaled by `(1 - beta) / beta ^ (idx + 1)`. -/
def momentumnet_main (beta : ℚ) (fn : ℚ → ℚ) : ℚ → ℕ → ℚ :=
  fun x idx => fn (x * (1 - beta) / beta ^ (idx + 1))

/-- `momentumnet_side` from `model.py`: decays the rail by `beta ^ idx` and
applies no block function at all (the wrapped context is ignored). -/
def momentumnet_side (beta : ℚ) : ℚ → ℕ → ℚ :=
  fun x idx => x * beta ^ idx

/-- `one_hot` from `model.py`: elementwise equality of the integer token id
against `arange(0, size)`. -/
def one_hot (inp : ℤ) (size : ℕ) : Fin size → Bool :=
  fun j => inp == (j : ℤ)

/-- One output coordinate of the explicit one-hot times embedding-matrix
product in `input_embed`: the boolean one-hot row is cast to the computation
dtype and contracted against the corresponding column `embd` of the embedding
matrix. -/
def input_embed (inp : ℤ) (size : ℕ) (embd : Fin size → ℚ) : ℚ :=
  ∑ j, (if one_hot inp size j then (1 : ℚ) else 0) * embd j

/-- `lax.psum` across the model-parallel group: elementwise sum over the `N`
workers of a per-worker tensor. -/
def lax_psum {N d : ℕ} (inp : Fin N → Fin d → ℚ) : Fin d → ℚ :=
  fun idx => ∑ w, inp w idx

/-- Position of entry `j` of the `i`-th contiguous shard inside the flat
sharded dimension of length `N * k`. -/
def shard_index {N k : ℕ} (i : Fin N) (j : Fin k) : Fin (N * k) :=
  ⟨i.1 * k + j.1, by
    calc i.1 * k + j.1 < i.1 * k + k := by omega
    _ = (i.1 + 1) * k := by ring
    _ ≤ N * k := Nat.mul_le_mul_right k i.2⟩

/-- The disjoint 1/N slice of a flat tensor kept by worker `i` after the
scatter step. -/
def shard {N k : ℕ} (x : Fin (N * k) → ℚ) (i : Fin N) : Fin k → ℚ :=
  fun j => x (shard_index i j)

/-- Forward of the custom-gradient `psum_scatter` from `model.py`: reduce the
input across the model-parallel group, then scatter disjoint shards
(`lax.psum_scatter`). -/
def psum_scatter_fwd {N k : ℕ} (inp : Fin N → Fin (N * k) → ℚ) (i : Fin N) :
    Fin k → ℚ :=
  shard (lax_psum inp) i

/-- Backward rule of `psum_scatter`: `lax.all_gather` of the per-worker shard
gradients along the group axis, reshaped back to the flat unsharded input
shape (`all_gather(out, model).reshape(inp.shape)`). -/
def psum_scatter_grad {N k : ℕ} (g : Fin N → Fin k → ℚ) : Fin (N * k) → ℚ :=
  fun idx =>
    have hk : 0 < k := by
      rcases Nat.eq_zero_or_pos k with hk0 | hk
      · exact absurd idx.2 (by simp [hk0])
      · exact hk
    g ⟨idx.1 / k, (Nat.div_lt_iff_lt_mul hk).mpr idx.2⟩
      ⟨idx.1 % k, Nat.mod_lt _ hk⟩

/-- Parameter-store context seen by `get_param` in `backend.py`: the parameter
dictionary (an association list keyed by the fully prefixed name) and the rng
key.  Tensors are flat lists of rationals. -/
structure PContext where
  parameters : List (String × List ℚ)
  prng_key : ℕ
deriving DecidableEq

/-- Stand-in for the fresh-tensor draw performed on a cache miss
(`orthogonal_init` or `normal` in `backend.py`): a deterministic function of
the current rng key producing `shape.prod` entries.  The numeric content of
the draw lives in the JAX library and is irrelevant to the store semantics. -/
def normal_draw (key : ℕ) (shape : List ℕ) : List ℚ :=
  (List.range shape.prod).map fun i => ((key : ℚ) + i)

/-- `get_param` from `backend.py` (cache path): if the prefixed name is absent
from `ctx.parameters`, a fresh tensor is drawn for the requested shape, stored
and returned with the rng key advanced; otherwise the stored tensor is
returned unchanged and the requested `shape` is ignored entirely — the
function performs no shape comparison. -/
def get_param (ctx : PContext) (name : String) (shape : List ℕ) :
    List ℚ × PContext :=
  match ctx.parameters.lookup name with
  | some t => (t, ctx)
  | none =>
    let t := normal_draw ctx.prng_key shape
    (t, ⟨(name, t) :: ctx.parameters, ctx.prng_key + 1⟩)

/-- `lax.top_k` applied to the per-example loss vector: the `k` largest
entries, in descending order. -/
def top_k_vals (l : List ℚ) (k : ℕ) : List ℚ :=
  (List.insertionSort (· ≥ ·) l).take k

/-- The snapped top-k size of `compute` in `model.py`:
`math.ceil(batch * loss_top_p / loss_top_snap)` followed by
`top_k *= loss_top_snap`. -/
def top_k_count (batch : ℕ) (loss_top_p : ℚ) (loss_top_snap : ℕ) : ℤ :=
  ⌈(batch : ℚ) * loss_top_p / (loss_top_snap : ℚ)⌉ * (loss_top_snap : ℤ)

/-- Loss head of `compute` in `model.py`, given the per-example loss vector:
the full-batch mean `loss`, and the diagnostic `top_loss`, which averages the
`top_k` worst per-example losses when `loss_top_p < 1 and top_k < batch` and
otherwise defaults to `loss`.  Returns `(top_loss, loss)`. -/
def compute (unreduced_loss : List ℚ) (batch : ℕ) (loss_top_p : ℚ)
    (loss_top_snap : ℕ) : ℚ × ℚ :=
  if loss_top_p < 1 ∧ top_k_count batch loss_top_p loss_top_snap < (batch : ℤ) then
    ((top_k_vals unreduced_loss (top_k_count batch loss_top_p loss_top_snap).toNat).sum /
        ((top_k_count batch loss_top_p loss_top_snap : ℤ) : ℚ),
      unreduced_loss.sum / (batch : ℚ))
  else (unreduced_loss.sum / (batch : ℚ), unreduced_loss.sum / (batch : ℚ))

/-- The number of worst per-example losses the reported top loss actually
averages: the snapped top-k count when the truncation branch is taken, the
whole batch otherwise. -/
def effCount (batch : ℕ) (loss_top_p : ℚ) (loss_top_snap : ℕ) : ℕ :=
  if loss_top_p < 1 ∧ top_k_count batch loss_top_p loss_top_snap < (batch : ℤ) then
    (top_k_count batch loss_top_p loss_top_snap).toNat
  else batch

/-- Python slice `l[-k:]` as used for window trimming in `wandblog.py`: the
last `k` entries, except that `k = 0` (python `-0`) keeps the whole list. -/
def pySlice (l : List ℚ) (k : ℕ) : List ℚ :=
  if k = 0 then l else l.drop (l.length - k)

/-- `np.median`: the middle entry of the sorted data, or the mean of the two
central entries for even length. -/
def npMedian (l : List ℚ) : ℚ :=
  if l.length % 2 = 1 then (List.insertionSort (· ≤ ·) l).getD (l.length / 2) 0
  else ((List.insertionSort (· ≤ ·) l).getD (l.length / 2 - 1) 0 +
    (List.insertionSort (· ≤ ·) l).getD (l.length / 2) 0) / 2

/-- Sliding-window state of `WandbLog` in `wandblog.py`. -/
structure MonitorState where
  losses : List ℚ
  accuracies : List ℚ
  loss_medians : List ℚ
deriving DecidableEq

/-- Static configuration read by `WandbLog.__call__`. -/
structure MonitorConfig where
  median_sizes : List ℕ
  device_steps : ℕ
  minimum_relative_loss_change : ℚ
  maximum_spike_size : ℚ
  maximum_spike_duration : ℕ
deriving DecidableEq

/-- `max(sizes)` for `sizes = [s // device_steps for s in median_sizes]`: the
length every sliding window is trimmed to. -/
def maxSize (cfg : MonitorConfig) : ℕ :=
  (cfg.median_sizes.map fun s => s / cfg.device_steps).foldr max 0

/-- One call of `WandbLog.__call__` up to the two early-stopping decisions:
appends the scaled loss and top loss, records the fresh window median, trims
all three windows to the largest window size, and evaluates the
"not improving" and "spiking" conditions on the trimmed windows.  The
negative floor division `-maximum_spike_duration // device_steps` of the
spike slice becomes the ceiling division below.  Returns the new state and
the two boolean signals; the python method returns true when either fires. -/
def wandb_call (cfg : MonitorConfig) (st : MonitorState) (loss top_loss : ℚ) :
    MonitorState × Bool × Bool :=
  let w := maxSize cfg
  let losses := st.losses ++ [loss / (cfg.device_steps : ℚ)]
  let accuracies := st.accuracies ++ [top_loss / (cfg.device_steps : ℚ)]
  let loss_medians := st.loss_medians ++ [npMedian (pySlice losses w)]
  let losses2 := pySlice losses w
  let accuracies2 := pySlice accuracies w
  let loss_medians2 := pySlice loss_medians w
  let not_improving := decide (loss_medians2.headI <
    loss_medians2.getLastD 0 * (1 - cfg.minimum_relative_loss_change))
  let spiking := (pySlice losses2
      ((cfg.maximum_spike_duration + cfg.device_steps - 1) / cfg.device_steps)).all
    fun x => decide (x > loss_medians2.getLastD 0 * cfg.maximum_spike_size)
  (⟨losses2, accuracies2, loss_medians2⟩, not_improving, spiking)

/-- Folding `wandb_call` over a stream of `(loss, top_loss)` observations from
the empty initial monitor state, or-accumulating the two signals. -/
def monitorRun (cfg : MonitorConfig) (inputs : List (ℚ × ℚ)) :
    MonitorState × Bool × Bool :=
  inputs.foldl
    (fun acc inp =>
      ((wandb_call cfg acc.1 inp.1 inp.2).1,
        acc.2.1 || (wandb_call cfg acc.1 inp.1 inp.2).2.1,
        acc.2.2 || (wandb_call cfg acc.1 inp.1 inp.2).2.2))
    (⟨[], [], []⟩, false, false)

/-- The per-call loss values as the monitor records them:
`wctx.loss / device_steps` for each observation. -/
def scaledLosses (cfg : MonitorConfig) (inputs : List (ℚ × ℚ)) : List ℚ :=
  inputs.map fun inp => inp.1 / (cfg.device_steps : ℚ)

/-- The per-call top-loss values as the monitor records them. -/
def scaledAccs (cfg : MonitorConfig) (inputs : List (ℚ × ℚ)) : List ℚ :=
  inputs.map fun inp => inp.2 / (cfg.device_steps : ℚ)

/-- The window medians recorded after each successive prefix of the scaled
loss stream `fed`. -/
def medsList (w : ℕ) (fed : List ℚ) : List ℚ :=
  (List.range fed.length).map fun i => npMedian (pySlice (fed.take (i + 1)) w)

/-- C1: For every block function `f`, parameter dictionary, and rail state
`(x0, back_x0, x1, back_x1)`, the executing-mode forward step of `reversible`
produces `(params, x1, x1, f x1 + x0, f x1 + x0)`, and the paired backward
reconstruction `y1 - f y0` applied to that output (whose value slots carry
`y0 = x1` and `y1 = f x1 + x0`) recovers exactly the pre-block rail value
`x0`, under exact arithmetic. -/
theorem reversible_round_trip {P G : Type} [AddCommGroup G] (f : G → G)
    (vjp_params : G → G → P) (vjp_x : G → G → G) (acc : P → P → P)
    (params : P) (x0 back_x0 x1 back_x1 : G) (d_params : P) (dy0 dy1 : G) :
    reversible_fwd f ⟨params, x0, back_x0, x1, back_x1⟩ =
        ⟨params, x1, x1, f x1 + x0, f x1 + x0⟩ ∧
      (reversible_grad f vjp_params vjp_x acc
          ⟨d_params, dy0,
            (reversible_fwd f ⟨params, x0, back_x0, x1, back_x1⟩).back_x0, dy1,
            (reversible_fwd f ⟨params, x0, back_x0, x1, back_x1⟩).back_x1⟩).back_x0
        = x0 := by
  refine ⟨rfl, ?_⟩
  simp [reversible_fwd, reversible_grad]

/-- C2 counterexample: the backward rule of `revnet_out` does not return the
stored backups in the backup slots.  At the concrete state
`(x0, back_x0, x1, back_x1) = (0, 1, 2, 3)` with incoming gradient `5` it
returns `(5, 0, 5, 2)` — the forward rail values `x0` and `x1` — and not
`(5, 1, 5, 3)` as the claim demands. -/
theorem revnet_out_grad_counterexample :
    revnet_out_grad (0 : ℤ) 1 2 3 5 = (5, 0, 5, 2) ∧
      revnet_out_grad (0 : ℤ) 1 2 3 5 ≠ (5, 1, 5, 3) := by
  decide

/-- C2 (amended): `revnet_out` returns the sum of the two rails, and its
backward rule returns the incoming gradient `dy` unchanged for both rails and
the forward rail values `x0` and `x1` — not the backup slots — for the two
backup components; whenever each rail equals its own backup (the invariant the
reversible engine establishes), these coincide with the stored backups. -/
theorem revnet_out_spec {G : Type} [AddCommGroup G] (x0 back_x0 x1 back_x1 dy : G) :
    revnet_out x0 back_x0 x1 back_x1 = x0 + x1 ∧
      revnet_out_grad x0 back_x0 x1 back_x1 dy = (dy, x0, dy, x1) ∧
      (x0 = back_x0 → x1 = back_x1 →
        revnet_out_grad x0 back_x0 x1 back_x1 dy = (dy, back_x0, dy, back_x1)) := by
  refine ⟨rfl, rfl, ?_⟩
  rintro rfl rfl
  rfl

/-- C2 witness: the amended statement evaluated at a concrete state whose
rails equal their backups. -/
theorem revnet_out_spec_witness :
    revnet_out (7 : ℤ) 7 9 9 = 16 ∧
      revnet_out_grad (7 : ℤ) 7 9 9 5 = (5, 7, 5, 9) := by
  have h := revnet_out_spec (7 : ℤ) 7 9 9 5
  exact ⟨by rw [h.1]; decide, by rw [h.2.2 rfl rfl]⟩

/-- C3: the scatter-reduce primitive.  Forward, worker `i` is left with
exactly the `i`-th disjoint 1/N shard of the group-wide elementwise sum of the
inputs; the shards tile the full reduced tensor (re-assembling all shards
reproduces `lax_psum` at every flat index); and the backward rule is the
all-gather that reassembles per-shard gradients back to the original
unsharded shape, a left inverse of sharding. -/
theorem psum_scatter_spec {N k : ℕ} (inp : Fin N → Fin (N * k) → ℚ) :
    (∀ (i : Fin N) (j : Fin k),
        psum_scatter_fwd inp i j = ∑ w, inp w (shard_index i j)) ∧
      (∀ x : Fin (N * k) → ℚ, psum_scatter_grad (shard x) = x) ∧
      psum_scatter_grad (psum_scatter_fwd inp) = lax_psum inp := by
  have hinv : ∀ x : Fin (N * k) → ℚ, psum_scatter_grad (shard x) = x := by
    intro x
    funext idx
    show x (shard_index _ _) = x idx
    congr 1
    apply Fin.ext
    show idx.1 / k * k + idx.1 % k = idx.1
    rw [Nat.mul_comm]
    exact Nat.div_add_mod idx.1 k
  exact ⟨fun i j => rfl, hinv, hinv (lax_psum inp)⟩

/-- C4 counterexample: re-declaring an existing parameter name with an
incompatible shape does not fail.  After creating `"w"` with shape `[2]`, a
second `get_param` call for `"w"` with shape `[3]` silently returns the
previously stored 2-element tensor and leaves the store untouched — there is
no `ShapeMismatch` error path in `get_param` at all. -/
theorem get_param_counterexample :
    (get_param (get_param ⟨[], 0⟩ "w" [2]).2 "w" [3]).1 =
        (get_param ⟨[], 0⟩ "w" [2]).1 ∧
      (get_param (get_param ⟨[], 0⟩ "w" [2]).2 "w" [3]).1.length = 2 ∧
      (get_param (get_param ⟨[], 0⟩ "w" [2]).2 "w" [3]).2 =
        (get_param ⟨[], 0⟩ "w" [2]).2 := by
  refine ⟨rfl, rfl, rfl⟩

/-- C4 (amended): for every parameter name that already exists in the store,
calling `get_param` again with that name — whatever shape is requested,
compatible or not — returns the previously stored tensor unchanged and leaves
the store and rng key untouched; no error is raised. -/
theorem get_param_existing_name (ctx : PContext) (name : String)
    (shape : List ℕ) (t : List ℚ) (h : ctx.parameters.lookup name = some t) :
    get_param ctx name shape = (t, ctx) := by
  simp [get_param, h]

/-- C4 witness: a store already holding `"w"` returns the stored tensor for a
differently shaped request. -/
theorem get_param_existing_name_witness :
    (⟨[("w", [5])], 3⟩ : PContext).parameters.lookup "w" = some [5] ∧
      get_param ⟨[("w", [5])], 3⟩ "w" [7, 7] = ([5], ⟨[("w", [5])], 3⟩) :=
  ⟨rfl, get_param_existing_name _ _ _ _ rfl⟩

/-- C6: for every depth index and rail value, `momentumnet_main` passes
`x * (1 - beta) / beta ^ (idx + 1)` to the wrapped block function, and
`momentumnet_side` returns `x * beta ^ idx` without applying any block
function, for a momentum coefficient `beta` in `(0, 1)`. -/
theorem momentumnet_spec (beta : ℚ) (hb0 : 0 < beta) (hb1 : beta < 1)
    (fn : ℚ → ℚ) (x : ℚ) (idx : ℕ) :
    momentumnet_main beta fn x idx = fn (x * (1 - beta) / beta ^ (idx + 1)) ∧
      momentumnet_side beta x idx = x * beta ^ idx :=
  ⟨rfl, rfl⟩

/-- C6 witness: the split evaluated at `beta = 1/2`, `fn = (+1)`, `x = 2`,
`idx = 0`. -/
theorem momentumnet_spec_witness :
    (0 : ℚ) < 1 / 2 ∧ (1 / 2 : ℚ) < 1 ∧
      momentumnet_main (1 / 2) (fun y => y + 1) 2 0 = 3 ∧
      momentumnet_side (1 / 2) 2 0 = 2 := by
  have h := momentumnet_spec (1 / 2) (by norm_num) (by norm_num)
    (fun y => y + 1) 2 0
  refine ⟨by norm_num, by norm_num, ?_, ?_⟩
  · rw [h.1]; norm_num
  · rw [h.2]; norm_num

/-- C9: every executing-mode `reversible` step emits a state whose rails equal
their own backup copies, so after any nonempty sequence of reversible steps —
in particular at the terminal `revnet_out` call — the backup components hold
exactly the current rail values. -/
theorem reversible_backup_invariant {P G : Type} [AddCommGroup G]
    (fs : List (G → G)) (s : RevState P G) (h : fs ≠ []) :
    (reversible_seq fs s).x0 = (reversible_seq fs s).back_x0 ∧
      (reversible_seq fs s).x1 = (reversible_seq fs s).back_x1 := by
  induction fs generalizing s with
  | nil => exact absurd rfl h
  | cons f fs ih =>
    rcases fs with - | ⟨g, gs⟩
    · exact ⟨rfl, rfl⟩
    · exact ih (reversible_fwd f s) (by simp)

/-- C9 witness: the invariant evaluated after one concrete step. -/
theorem reversible_backup_invariant_witness :
    ([fun x : ℤ => x + 1] ≠ ([] : List (ℤ → ℤ))) ∧
      ((reversible_seq (P := Unit) [fun x : ℤ => x + 1] ⟨(), 1, 2, 3, 4⟩).x0 =
          (reversible_seq (P := Unit) [fun x : ℤ => x + 1] ⟨(), 1, 2, 3, 4⟩).back_x0 ∧
        (reversible_seq (P := Unit) [fun x : ℤ => x + 1] ⟨(), 1, 2, 3, 4⟩).x1 =
          (reversible_seq (P := Unit) [fun x : ℤ => x + 1] ⟨(), 1, 2, 3, 4⟩).back_x1) :=
  ⟨List.cons_ne_nil _ _,
    reversible_backup_invariant [fun x : ℤ => x + 1] ⟨(), 1, 2, 3, 4⟩
      (List.cons_ne_nil _ _)⟩

/-- C10: `one_hot` has exactly one hot position when the token id lies in
`[0, size)` and is the all-zero vector otherwise, so the explicit one-hot
matmul of `input_embed` maps an in-vocabulary token to its embedding row and
an out-of-vocabulary token to the zero embedding — no error and no
out-of-bounds access. -/
theorem one_hot_input_embed_spec (inp : ℤ) (size : ℕ) (embd : Fin size → ℚ) :
    (∀ h : 0 ≤ inp ∧ inp < (size : ℤ),
        (Finset.univ.filter fun j : Fin size => one_hot inp size j).card = 1 ∧
          input_embed inp size embd = embd ⟨inp.toNat, by omega⟩) ∧
      ((inp < 0 ∨ (size : ℤ) ≤ inp) →
        (∀ j : Fin size, one_hot inp size j = false) ∧
          input_embed inp size embd = 0) := by
  constructor
  · rintro ⟨h0, hs⟩
    have hlt : inp.toNat < size := by omega
    have key : ∀ j : Fin size, one_hot inp size j = true ↔ j = ⟨inp.toNat, hlt⟩ := by
      intro j
      simp only [one_hot, beq_iff_eq, Fin.ext_iff]
      omega
    constructor
    · rw [Finset.card_eq_one]
      refine ⟨⟨inp.toNat, hlt⟩, ?_⟩
      ext j
      simpa using key j
    · unfold input_embed
      rw [Finset.sum_eq_single ⟨inp.toNat, hlt⟩]
      · rw [if_pos ((key _).mpr rfl), one_mul]
      · intro j hj hne
        rw [if_neg (fun hc => hne ((key j).mp hc)), zero_mul]
      · intro hu
        exact absurd (Finset.mem_univ _) hu
  · intro h
    have hz : ∀ j : Fin size, one_hot inp size j = false := by
      intro j
      have hj := j.2
      simp only [one_hot, beq_eq_false_iff_ne, ne_eq]
      omega
    refine ⟨hz, ?_⟩
    unfold input_embed
    rw [Finset.sum_eq_zero]
    intro j hj
    rw [hz j]
    simp

/-- C10 witness: the out-of-vocabulary branch at token id `5` with vocabulary
size `3`. -/
theorem one_hot_input_embed_spec_witness :
    (∀ j : Fin 3, one_hot 5 3 j = false) ∧
      input_embed 5 3 (fun _ => (7 : ℚ)) = 0 :=
  (one_hot_input_embed_spec 5 3 (fun _ => (7 : ℚ))).2 (by norm_num)

/-- Helper: a lower bound on every element of a list bounds its sum from
below. -/
theorem mul_length_le_sum (t : List ℚ) (x : ℚ) (hx : ∀ y ∈ t, x ≤ y) :
    x * t.length ≤ t.sum := by
  induction t with
  | nil => simp
  | cons a t ih =>
    simp only [List.length_cons, List.sum_cons]
    push_cast
    have h1 : x ≤ a := hx a (by simp)
    have h2 : x * t.length ≤ t.sum := ih fun y hy => hx y (by simp [hy])
    nlinarith

/-- Helper: appending the next element of a descending-sorted list can only
lower the average of a prefix. -/
theorem sorted_take_avg_succ (l : List ℚ) (hl : l.Sorted (· ≥ ·)) (m : ℕ)
    (h1 : 1 ≤ m) (hm : m < l.length) :
    (l.take (m + 1)).sum / (m + 1 : ℚ) ≤ (l.take m).sum / (m : ℚ) := by
  have htake : l.take (m + 1) = l.take m ++ [l[m]] := by
    rw [List.take_succ]
    simp [List.getElem?_eq_getElem hm]
  have hx : ∀ y ∈ l.take m, l[m] ≤ y := by
    intro y hy
    have hsorted : (l.take m ++ l.drop m).Sorted (· ≥ ·) := by
      rw [List.take_append_drop]; exact hl
    have hmem : l[m] ∈ l.drop m := by
      rw [List.drop_eq_getElem_cons hm]
      exact List.mem_cons_self _ _
    have hrel := List.Pairwise.rel_of_mem_append hsorted hy hmem
    exact hrel
  have hlen : (l.take m).length = m := by
    rw [List.length_take]
    omega
  have hsum : l[m] * (m : ℚ) ≤ (l.take m).sum := by
    have := mul_length_le_sum (l.take m) l[m] hx
    rwa [hlen] at this
  have hm0 : (0 : ℚ) < m := by exact_mod_cast h1
  have hm1 : (0 : ℚ) < (m : ℚ) + 1 := by positivity
  rw [htake, List.sum_append, List.sum_singleton,
    div_le_div_iff hm1 hm0]
  nlinarith

/-- Helper: the average of the first `j` entries of a descending-sorted list
is at least the average of the first `m ≥ j` entries. -/
theorem sorted_take_avg_antitone (l : List ℚ) (hl : l.Sorted (· ≥ ·))
    (j m : ℕ) (h1 : 1 ≤ j) (hjm : j ≤ m) (hml : m ≤ l.length) :
    (l.take m).sum / (m : ℚ) ≤ (l.take j).sum / (j : ℚ) := by
  induction m, hjm using Nat.le_induction with
  | base => exact le_refl _
  | succ m hjm ih =>
    have hm : m < l.length := by omega
    calc (l.take (m + 1)).sum / ((m + 1 : ℕ) : ℚ)
        ≤ (l.take m).sum / (m : ℚ) := by
          push_cast
          exact sorted_take_avg_succ l hl m (by omega) hm
      _ ≤ (l.take j).sum / (j : ℚ) := ih (by omega)

/-- Helper: the snapped top-k count is positive for positive `p`, `batch`,
`snap`. -/
theorem top_k_count_pos (batch : ℕ) (p : ℚ) (snap : ℕ) (hb : 0 < batch)
    (hsnap : 0 < snap) (hp : 0 < p) : 0 < top_k_count batch p snap := by
  unfold top_k_count
  have hq : (0 : ℚ) < (batch : ℚ) * p / (snap : ℚ) := by positivity
  have hc : 0 < ⌈(batch : ℚ) * p / (snap : ℚ)⌉ := Int.ceil_pos.mpr hq
  have hs : (0 : ℤ) < (snap : ℤ) := by exact_mod_cast hsnap
  positivity

/-- Helper: the snapped top-k count is monotone in `p`. -/
theorem top_k_count_mono (batch : ℕ) (p q : ℚ) (snap : ℕ) (hpq : p ≤ q) :
    top_k_count batch p snap ≤ top_k_count batch q snap := by
  unfold top_k_count
  have : ⌈(batch : ℚ) * p / (snap : ℚ)⌉ ≤ ⌈(batch : ℚ) * q / (snap : ℚ)⌉ := by
    apply Int.ceil_le_ceil
    gcongr
  have hs : (0 : ℤ) ≤ (snap : ℤ) := by positivity
  exact mul_le_mul_of_nonneg_right this hs

/-- Helper: the reported top loss equals the average of the `effCount` worst
per-example losses. -/
theorem compute_fst_eq (l : List ℚ) (batch : ℕ) (p : ℚ) (snap : ℕ)
    (hlen : l.length = batch) (hb : 0 < batch) (hsnap : 0 < snap)
    (hp : 0 < p) :
    (compute l batch p snap).1 =
      (top_k_vals l (effCount batch p snap)).sum / (effCount batch p snap : ℚ) := by
  have hK : 0 < top_k_count batch p snap := top_k_count_pos batch p snap hb hsnap hp
  unfold compute effCount
  split_ifs with h
  · rw [show ((top_k_count batch p snap).toNat : ℚ) =
        ((top_k_count batch p snap : ℤ) : ℚ) from by
      exact_mod_cast Int.toNat_of_nonneg hK.le]
  · have hS : (List.insertionSort (· ≥ ·) l).length = batch := by
      rw [(List.perm_insertionSort (· ≥ ·) l).length_eq, hlen]
    have htake : top_k_vals l batch = List.insertionSort (· ≥ ·) l := by
      unfold top_k_vals
      exact List.take_of_length_le (le_of_eq hS)
    rw [htake, (List.perm_insertionSort (· ≥ ·) l).sum_eq]

/-- C5 counterexample.  First, with `batch = 2`, `loss_top_p = 1/2`,
`loss_top_snap = 8` the snapped count is `ceil(2 * (1/2) / 8) * 8 = 8 > 2`, the
truncation branch is skipped, and the reported top loss is the full mean over
only 2 examples — not over at least 8 of the worst as claimed.  Second, for
losses `[3, 1]` with `snap = 1`, lowering `p` from `9/10` to `1/2` moves the
top loss from `2` (full mean) up to `3` (worst example), so the top loss is
not monotonically non-increasing as `p` decreases. -/
theorem compute_top_loss_counterexample :
    (¬ ∃ m : ℕ, 8 ≤ m ∧ m ≤ 2 ∧
        (compute [3, 1] 2 (1 / 2) 8).1 = (top_k_vals [3, 1] m).sum / (m : ℚ)) ∧
      (compute [3, 1] 2 (9 / 10) 1).1 = 2 ∧
      (compute [3, 1] 2 (1 / 2) 1).1 = 3 ∧
      ¬ (compute [3, 1] 2 (1 / 2) 1).1 ≤ (compute [3, 1] 2 (9 / 10) 1).1 := by
  have hK8 : top_k_count 2 (1 / 2) 8 = 8 := by
    unfold top_k_count
    have : ⌈((2 : ℕ) : ℚ) * (1 / 2) / ((8 : ℕ) : ℚ)⌉ = 1 := by
      rw [Int.ceil_eq_iff] <;> norm_num
    rw [this]
    norm_num
  have hK9 : top_k_count 2 (9 / 10) 1 = 2 := by
    unfold top_k_count
    have : ⌈((2 : ℕ) : ℚ) * (9 / 10) / ((1 : ℕ) : ℚ)⌉ = 2 := by
      rw [Int.ceil_eq_iff] <;> norm_num
    rw [this]
    norm_num
  have hK1 : top_k_count 2 (1 / 2) 1 = 1 := by
    unfold top_k_count
    have : ⌈((2 : ℕ) : ℚ) * (1 / 2) / ((1 : ℕ) : ℚ)⌉ = 1 := by
      rw [Int.ceil_eq_iff] <;> norm_num
    rw [this]
    norm_num
  have hv9 : (compute [3, 1] 2 (9 / 10) 1).1 = 2 := by
    unfold compute
    rw [if_neg (by rw [hK9]; norm_num)]
    norm_num
  have hv1 : (compute [3, 1] 2 (1 / 2) 1).1 = 3 := by
    unfold compute
    rw [if_pos ⟨by norm_num, by rw [hK1]; norm_num⟩, hK1]
    norm_num [top_k_vals]
  refine ⟨?_, hv9, hv1, ?_⟩
  · rintro ⟨m, h8, h2, -⟩
    omega
  · rw [hv9, hv1]
    norm_num

/-- C5 (amended): for fixed per-example losses of length `batch`, with
`0 < loss_top_snap`, `0 < batch` and `0 < loss_top_p`, whenever
`loss_top_p < 1` the reported top loss is averaged over exactly
`min(batch, ceil(batch * loss_top_p / loss_top_snap) * loss_top_snap)` of the
worst per-example losses, and the top loss is monotonically non-DEcreasing as
`loss_top_p` decreases (all other inputs held fixed). -/
theorem compute_top_loss_spec (l : List ℚ) (batch : ℕ) (p q : ℚ) (snap : ℕ)
    (hlen : l.length = batch) (hb : 0 < batch) (hsnap : 0 < snap)
    (hq : 0 < q) (hqp : q ≤ p) :
    (p < 1 →
        (compute l batch p snap).1 =
          (top_k_vals l (min batch (top_k_count batch p snap).toNat)).sum /
            ((min batch (top_k_count batch p snap).toNat : ℕ) : ℚ)) ∧
      (compute l batch p snap).1 ≤ (compute l batch q snap).1 := by
  have hp : 0 < p := lt_of_lt_of_le hq hqp
  have hKp : 0 < top_k_count batch p snap := top_k_count_pos batch p snap hb hsnap hp
  have hKq : 0 < top_k_count batch q snap := top_k_count_pos batch q snap hb hsnap hq
  have hKmono : top_k_count batch q snap ≤ top_k_count batch p snap :=
    top_k_count_mono batch q p snap hqp
  have heffp := compute_fst_eq l batch p snap hlen hb hsnap hp
  have heffq := compute_fst_eq l batch q snap hlen hb hsnap hq
  have hS : (List.insertionSort (· ≥ ·) l).length = batch := by
    rw [(List.perm_insertionSort (· ≥ ·) l).length_eq, hlen]
  have hsorted : (List.insertionSort (· ≥ ·) l).Sorted (· ≥ ·) :=
    List.sorted_insertionSort _ _
  have heff_le : effCount batch q snap ≤ effCount batch p snap := by
    unfold effCount
    split_ifs with h1 h2 h2
    · omega
    · have := h1.2
      omega
    · push_neg at h1
      have hq1 : q < 1 := lt_of_le_of_lt hqp h2.1
      have hbq := h1 hq1
      have hbp := h2.2
      omega
    · omega
  have heff_pos : 1 ≤ effCount batch q snap := by
    unfold effCount
    split_ifs <;> omega
  have heff_le_batch : effCount batch p snap ≤ batch := by
    unfold effCount
    split_ifs <;> omega
  constructor
  · intro hp1
    rw [heffp]
    have : effCount batch p snap = min batch (top_k_count batch p snap).toNat := by
      unfold effCount
      split_ifs with h
      · omega
      · push_neg at h
        have := h hp1
        omega
    rw [this]
  · rw [heffp, heffq]
    exact sorted_take_avg_antitone (List.insertionSort (· ≥ ·) l) hsorted
      (effCount batch q snap) (effCount batch p snap) heff_pos heff_le
      (by omega)

/-- C5 witness: the amended statement at losses `[3, 1]`, `batch = 2`,
`snap = 1`, comparing `p = 1/2` against the smaller `q = 1/4`. -/
theorem compute_top_loss_spec_witness :
    (((1 : ℚ) / 2) < 1 →
        (compute [3, 1] 2 (1 / 2) 1).1 =
          (top_k_vals [3, 1] (min 2 (top_k_count 2 (1 / 2) 1).toNat)).sum /
            ((min 2 (top_k_count 2 (1 / 2) 1).toNat : ℕ) : ℚ)) ∧
      (compute [3, 1] 2 (1 / 2) 1).1 ≤ (compute [3, 1] 2 (1 / 4) 1).1 :=
  compute_top_loss_spec [3, 1] 2 (1 / 2) (1 / 4) 1 rfl (by norm_num)
    (by norm_num) (by norm_num) (by norm_num)

/-- Helper: trimmed windows only contain entries of the underlying list. -/
theorem pySlice_subset (l : List ℚ) (k : ℕ) : ∀ x ∈ pySlice l k, x ∈ l := by
  intro x hx
  unfold pySlice at hx
  split_ifs at hx
  · exact hx
  · exact List.mem_of_mem_drop hx

/-- Helper: a python tail slice of the empty list is empty. -/
theorem pySlice_nil (k : ℕ) : pySlice [] k = [] := by
  unfold pySlice
  split_ifs
  · rfl
  · exact List.drop_nil

/-- Helper: length of a python tail slice with positive `k`. -/
theorem pySlice_length (l : List ℚ) (k : ℕ) (hk : 0 < k) :
    (pySlice l k).length = min k l.length := by
  unfold pySlice
  rw [if_neg (by omega), List.length_drop]
  omega

/-- Helper: for positive `k` the python tail slice is a `drop`. -/
theorem pySlice_eq_drop (l : List ℚ) (k : ℕ) (hk : 0 < k) :
    pySlice l k = l.drop (l.length - k) := by
  unfold pySlice
  rw [if_neg (by omega)]

/-- Helper: a python tail slice of a one-element extension keeps that
element last. -/
theorem pySlice_concat (l : List ℚ) (a : ℚ) (k : ℕ) (hk : 0 < k) :
    pySlice (l ++ [a]) k = l.drop (l.length + 1 - k) ++ [a] := by
  rw [pySlice_eq_drop _ _ hk, List.length_append, List.length_singleton,
    List.drop_append_of_le_length (by omega)]

/-- Helper: trimming, appending one element and trimming again is the same as
appending to the untrimmed list and trimming once. -/
theorem pySlice_snoc (l : List ℚ) (a : ℚ) (k : ℕ) :
    pySlice (pySlice l k ++ [a]) k = pySlice (l ++ [a]) k := by
  rcases Nat.eq_zero_or_pos k with hk | hk
  · subst hk
    simp [pySlice]
  · rw [pySlice_concat _ _ _ hk, pySlice_concat _ _ _ hk,
      pySlice_eq_drop _ _ hk, List.length_drop, List.drop_drop]
    congr 2
    omega

/-- Helper: the head of a dropped list is the entry at the drop index. -/
theorem headI_drop (l : List ℚ) (k : ℕ) (h : k < l.length) :
    (l.drop k).headI = l[k] := by
  rw [List.drop_eq_getElem_cons h]
  rfl

/-- Helper: there is one recorded median per fed loss. -/
theorem medsList_length (w : ℕ) (fed : List ℚ) :
    (medsList w fed).length = fed.length := by
  unfold medsList
  rw [List.length_map, List.length_range]

/-- Helper: feeding one more loss appends the median of the new trimmed
window. -/
theorem medsList_snoc (w : ℕ) (fed : List ℚ) (b : ℚ) :
    medsList w (fed ++ [b]) =
      medsList w fed ++ [npMedian (pySlice (fed ++ [b]) w)] := by
  unfold medsList
  rw [List.length_append, List.length_singleton, List.range_succ,
    List.map_append]
  congr 1
  · apply List.map_congr_left
    intro i hi
    rw [List.mem_range] at hi
    rw [List.take_append_of_le_length (by omega)]
  · simp only [List.map_cons, List.map_nil]
    rw [List.take_of_length_le (by rw [List.length_append]; simp)]

/-- Helper: the `i`-th recorded median is the median of the window after the
`(i+1)`-st loss. -/
theorem medsList_getElem (w : ℕ) (fed : List ℚ) (i : ℕ) (hi : i < fed.length)
    (hi2 : i < (medsList w fed).length) :
    (medsList w fed)[i] = npMedian (pySlice (fed.take (i + 1)) w) := by
  unfold medsList
  simp [List.getElem_map, List.getElem_range]

/-- Helper: the median of a nonempty list is at least any lower bound of its
entries. -/
theorem le_npMedian (l : List ℚ) (hne : l ≠ []) (a : ℚ)
    (ha : ∀ x ∈ l, a ≤ x) : a ≤ npMedian l := by
  have hlen : 0 < l.length := List.length_pos.mpr hne
  have hS : (List.insertionSort (· ≤ ·) l).length = l.length :=
    (List.perm_insertionSort _ _).length_eq
  have hmem : ∀ i, i < l.length → a ≤ (List.insertionSort (· ≤ ·) l).getD i 0 := by
    intro i h
    rw [List.getD_eq_getElem _ _ (by omega : i < (List.insertionSort (· ≤ ·) l).length)]
    exact ha _ ((List.perm_insertionSort (· ≤ ·) l).mem_iff.mp (List.getElem_mem _))
  unfold npMedian
  split_ifs with hpar
  · exact hmem _ (by omega)
  · have h1 := hmem (l.length / 2 - 1) (by omega)
    have h2 := hmem (l.length / 2) (by omega)
    linarith

/-- Helper: the median of a nonempty list is at most any upper bound of its
entries. -/
theorem npMedian_le (l : List ℚ) (hne : l ≠ []) (b : ℚ)
    (hb : ∀ x ∈ l, x ≤ b) : npMedian l ≤ b := by
  have hlen : 0 < l.length := List.length_pos.mpr hne
  have hS : (List.insertionSort (· ≤ ·) l).length = l.length :=
    (List.perm_insertionSort _ _).length_eq
  have hmem : ∀ i, i < l.length → (List.insertionSort (· ≤ ·) l).getD i 0 ≤ b := by
    intro i h
    rw [List.getD_eq_getElem _ _ (by omega : i < (List.insertionSort (· ≤ ·) l).length)]
    exact hb _ ((List.perm_insertionSort (· ≤ ·) l).mem_iff.mp (List.getElem_mem _))
  unfold npMedian
  split_ifs with hpar
  · exact hmem _ (by omega)
  · have h1 := hmem (l.length / 2 - 1) (by omega)
    have h2 := hmem (l.length / 2) (by omega)
    linarith

/-- Helper: on a weakly decreasing nonnegative fed stream, the head of the
trimmed median window is never below the freshly recorded median scaled by
`1 - r` for `0 ≤ r`. -/
theorem meds_no_fire_core (w : ℕ) (hw : 0 < w) (fed : List ℚ) (b r : ℚ)
    (hsorted : (fed ++ [b]).Sorted (· ≥ ·))
    (hnn : ∀ x ∈ fed ++ [b], 0 ≤ x) (hr : 0 ≤ r) :
    ¬ ((pySlice (medsList w (fed ++ [b])) w).headI <
        (pySlice (medsList w (fed ++ [b])) w).getLastD 0 * (1 - r)) := by
  have hn' : 0 < (fed ++ [b]).length := by simp
  have hlenM : (medsList w (fed ++ [b])).length = (fed ++ [b]).length :=
    medsList_length w (fed ++ [b])
  have hi0 : (fed ++ [b]).length - w < (fed ++ [b]).length := by omega
  -- the last recorded median is the median of the current trimmed window
  have hlast : (pySlice (medsList w (fed ++ [b])) w).getLastD 0 =
      npMedian (pySlice (fed ++ [b]) w) := by
    rw [medsList_snoc, pySlice_concat _ _ _ hw, List.getLastD_concat]
  -- the head of the trimmed median window is an older recorded median
  have hhead : (pySlice (medsList w (fed ++ [b])) w).headI =
      npMedian (pySlice ((fed ++ [b]).take ((fed ++ [b]).length - w + 1)) w) := by
    rw [pySlice_eq_drop _ _ hw, hlenM,
      headI_drop _ _ (by rw [hlenM]; omega)]
    exact medsList_getElem w (fed ++ [b]) _ hi0 (by rw [hlenM]; omega)
  -- the pivot entry of the stream
  have hW1ne : pySlice ((fed ++ [b]).take ((fed ++ [b]).length - w + 1)) w ≠ [] := by
    apply List.ne_nil_of_length_pos
    rw [pySlice_length _ _ hw, List.length_take]
    omega
  have hW1ge : ∀ x ∈ pySlice ((fed ++ [b]).take ((fed ++ [b]).length - w + 1)) w,
      (fed ++ [b])[(fed ++ [b]).length - w] ≤ x := by
    intro x hx
    have hxT : x ∈ (fed ++ [b]).take ((fed ++ [b]).length - w + 1) :=
      pySlice_subset _ _ x hx
    obtain ⟨jt, hjt, hxeq⟩ := List.mem_iff_getElem.mp hxT
    have hjt2 : jt < (fed ++ [b]).length - w + 1 := by
      have := hjt
      rw [List.length_take] at this
      omega
    have hjfed : jt < (fed ++ [b]).length := by omega
    have hTj : ((fed ++ [b]).take ((fed ++ [b]).length - w + 1))[jt] =
        (fed ++ [b])[jt] := List.getElem_take _
    rcases Nat.lt_or_ge jt ((fed ++ [b]).length - w) with hlt | hge
    · have hrel := List.pairwise_iff_getElem.mp hsorted jt
        ((fed ++ [b]).length - w) hjfed hi0 hlt
      rw [← hxeq, hTj]
      exact hrel
    · have hje : jt = (fed ++ [b]).length - w := by omega
      subst hje
      rw [← hxeq, hTj]
  have hW2ne : pySlice (fed ++ [b]) w ≠ [] := by
    apply List.ne_nil_of_length_pos
    rw [pySlice_length _ _ hw]
    omega
  have hW2le : ∀ x ∈ pySlice (fed ++ [b]) w,
      x ≤ (fed ++ [b])[(fed ++ [b]).length - w] := by
    intro x hx
    rw [pySlice_eq_drop _ _ hw, List.drop_eq_getElem_cons hi0] at hx
    rcases List.mem_cons.mp hx with heq | hmem
    · exact le_of_eq heq
    · have hsdrop : ((fed ++ [b]).drop ((fed ++ [b]).length - w)).Pairwise (· ≥ ·) :=
        hsorted.sublist (List.drop_sublist _ _)
      rw [List.drop_eq_getElem_cons hi0] at hsdrop
      exact List.rel_of_sorted_cons hsdrop x hmem
  have hW2nn : ∀ x ∈ pySlice (fed ++ [b]) w, 0 ≤ x := fun x hx =>
    hnn x (pySlice_subset _ _ x hx)
  have h1 : (fed ++ [b])[(fed ++ [b]).length - w] ≤
      (pySlice (medsList w (fed ++ [b])) w).headI := by
    rw [hhead]
    exact le_npMedian _ hW1ne _ hW1ge
  have h2 : (pySlice (medsList w (fed ++ [b])) w).getLastD 0 ≤
      (fed ++ [b])[(fed ++ [b]).length - w] := by
    rw [hlast]
    exact npMedian_le _ hW2ne _ hW2le
  have h3 : 0 ≤ (pySlice (medsList w (fed ++ [b])) w).getLastD 0 := by
    rw [hlast]
    exact le_npMedian _ hW2ne 0 hW2nn
  push_neg
  calc (pySlice (medsList w (fed ++ [b])) w).getLastD 0 * (1 - r)
      ≤ (pySlice (medsList w (fed ++ [b])) w).getLastD 0 := by nlinarith
    _ ≤ (fed ++ [b])[(fed ++ [b]).length - w] := h2
    _ ≤ (pySlice (medsList w (fed ++ [b])) w).headI := h1

/-- Helper: the state part of one monitor call, written out. -/
theorem wandb_call_state (cfg : MonitorConfig) (st : MonitorState)
    (loss tl : ℚ) :
    (wandb_call cfg st loss tl).1 =
      ⟨pySlice (st.losses ++ [loss / (cfg.device_steps : ℚ)]) (maxSize cfg),
        pySlice (st.accuracies ++ [tl / (cfg.device_steps : ℚ)]) (maxSize cfg),
        pySlice (st.loss_medians ++
            [npMedian (pySlice (st.losses ++ [loss / (cfg.device_steps : ℚ)])
              (maxSize cfg))])
          (maxSize cfg)⟩ := rfl

/-- Helper: the "not improving" signal of one monitor call, written out. -/
theorem wandb_call_not_improving_eq (cfg : MonitorConfig) (st : MonitorState)
    (loss tl : ℚ) :
    (wandb_call cfg st loss tl).2.1 =
      decide ((pySlice (st.loss_medians ++
            [npMedian (pySlice (st.losses ++ [loss / (cfg.device_steps : ℚ)])
              (maxSize cfg))])
          (maxSize cfg)).headI <
        (pySlice (st.loss_medians ++
            [npMedian (pySlice (st.losses ++ [loss / (cfg.device_steps : ℚ)])
              (maxSize cfg))])
          (maxSize cfg)).getLastD 0 * (1 - cfg.minimum_relative_loss_change)) := rfl

/-- Helper: unrolling the monitor fold by one trailing observation. -/
theorem monitorRun_snoc (cfg : MonitorConfig) (inputs : List (ℚ × ℚ))
    (x : ℚ × ℚ) :
    monitorRun cfg (inputs ++ [x]) =
      ((wandb_call cfg (monitorRun cfg inputs).1 x.1 x.2).1,
        (monitorRun cfg inputs).2.1 ||
          (wandb_call cfg (monitorRun cfg inputs).1 x.1 x.2).2.1,
        (monitorRun cfg inputs).2.2 ||
          (wandb_call cfg (monitorRun cfg inputs).1 x.1 x.2).2.2) := by
  unfold monitorRun
  rw [List.foldl_append]
  rfl

/-- Helper: the scaled loss stream of a one-longer observation list. -/
theorem scaledLosses_snoc (cfg : MonitorConfig) (inputs : List (ℚ × ℚ))
    (x : ℚ × ℚ) :
    scaledLosses cfg (inputs ++ [x]) =
      scaledLosses cfg inputs ++ [x.1 / (cfg.device_steps : ℚ)] := by
  unfold scaledLosses
  rw [List.map_append]
  rfl

/-- Helper: the scaled top-loss stream of a one-longer observation list. -/
theorem scaledAccs_snoc (cfg : MonitorConfig) (inputs : List (ℚ × ℚ))
    (x : ℚ × ℚ) :
    scaledAccs cfg (inputs ++ [x]) =
      scaledAccs cfg inputs ++ [x.2 / (cfg.device_steps : ℚ)] := by
  unfold scaledAccs
  rw [List.map_append]
  rfl

/-- Helper: after any run, the three windows are exactly the python tail
slices of the full scaled histories and of the recorded median stream. -/
theorem monitorRun_state (cfg : MonitorConfig) (inputs : List (ℚ × ℚ)) :
    (monitorRun cfg inputs).1.losses =
        pySlice (scaledLosses cfg inputs) (maxSize cfg) ∧
      (monitorRun cfg inputs).1.accuracies =
        pySlice (scaledAccs cfg inputs) (maxSize cfg) ∧
      (monitorRun cfg inputs).1.loss_medians =
        pySlice (medsList (maxSize cfg) (scaledLosses cfg inputs))
          (maxSize cfg) := by
  induction inputs using List.reverseRecOn with
  | nil =>
    refine ⟨?_, ?_, ?_⟩ <;>
      simp [monitorRun, scaledLosses, scaledAccs, medsList, pySlice_nil]
  | append_singleton inputs x ih =>
    obtain ⟨hL, hA, hM⟩ := ih
    rw [monitorRun_snoc, wandb_call_state]
    refine ⟨?_, ?_, ?_⟩
    · show pySlice ((monitorRun cfg inputs).1.losses ++
          [x.1 / (cfg.device_steps : ℚ)]) (maxSize cfg) = _
      rw [hL, pySlice_snoc, scaledLosses_snoc]
    · show pySlice ((monitorRun cfg inputs).1.accuracies ++
          [x.2 / (cfg.device_steps : ℚ)]) (maxSize cfg) = _
      rw [hA, pySlice_snoc, scaledAccs_snoc]
    · show pySlice ((monitorRun cfg inputs).1.loss_medians ++
          [npMedian (pySlice ((monitorRun cfg inputs).1.losses ++
            [x.1 / (cfg.device_steps : ℚ)]) (maxSize cfg))]) (maxSize cfg) = _
      rw [hL, hM, pySlice_snoc, pySlice_snoc, ← medsList_snoc,
        ← scaledLosses_snoc]

/-- Helper: on a weakly decreasing stream of nonnegative scaled losses the
"not improving" signal never fires. -/
theorem monitor_no_fire_aux (cfg : MonitorConfig) (inputs : List (ℚ × ℚ))
    (hw : 0 < maxSize cfg) (hr : 0 ≤ cfg.minimum_relative_loss_change)
    (hsorted : (scaledLosses cfg inputs).Sorted (· ≥ ·))
    (hnn : ∀ x ∈ scaledLosses cfg inputs, 0 ≤ x) :
    (monitorRun cfg inputs).2.1 = false := by
  induction inputs using List.reverseRecOn with
  | nil => rfl
  | append_singleton inputs x ih =>
    rw [scaledLosses_snoc] at hsorted hnn
    have hsorted0 : (scaledLosses cfg inputs).Sorted (· ≥ ·) :=
      hsorted.sublist (List.sublist_append_left _ _)
    have hnn0 : ∀ y ∈ scaledLosses cfg inputs, 0 ≤ y := fun y hy =>
      hnn y (List.mem_append_left _ hy)
    have hstep : (wandb_call cfg (monitorRun cfg inputs).1 x.1 x.2).2.1 = false := by
      rw [wandb_call_not_improving_eq]
      obtain ⟨hL, -, hM⟩ := monitorRun_state cfg inputs
      rw [hL, hM, pySlice_snoc, pySlice_snoc, ← medsList_snoc]
      apply decide_eq_false
      exact meds_no_fire_core (maxSize cfg) hw (scaledLosses cfg inputs)
        (x.1 / (cfg.device_steps : ℚ)) _ hsorted hnn hr
    rw [monitorRun_snoc]
    show ((monitorRun cfg inputs).2.1 ||
      (wandb_call cfg (monitorRun cfg inputs).1 x.1 x.2).2.1) = false
    rw [ih hsorted0 hnn0, hstep]
    rfl

/-- C7 counterexample: as universally stated over arbitrary loss values the
claim fails.  With one window of size 2, device_steps 1 and relative fraction
1/2, the strictly decreasing sequence -4, -8 trips the "not improving" signal
at its very first call (a negative median satisfies m < m * (1 - r)); and
with a negative configured fraction -10 even the positive strictly decreasing
sequence 4, 2 trips it. -/
theorem monitor_not_improving_counterexample :
    (monitorRun ⟨[2], 1, 1 / 2, 100, 1⟩ [(-4, 0), (-8, 0)]).2.1 = true ∧
      (monitorRun ⟨[2], 1, -10, 100, 1⟩ [(4, 0), (2, 0)]).2.1 = true := by
  constructor <;>
    norm_num [monitorRun, wandb_call, maxSize, pySlice, npMedian,
      List.getD, List.headI, List.getLastD, List.getLast]

/-- C7 (amended): for every strictly decreasing sequence of NONNEGATIVE loss
values of length equal to the largest configured window, fed one call at a
time to the monitor with a NONNEGATIVE configured relative fraction (and
positive device_steps and window), the "not improving" early-stopping signal
never fires. -/
theorem monitor_decreasing_not_improving (cfg : MonitorConfig)
    (inputs : List (ℚ × ℚ)) (hw : 0 < maxSize cfg)
    (hds : 0 < cfg.device_steps)
    (hr : 0 ≤ cfg.minimum_relative_loss_change)
    (hlen : inputs.length = maxSize cfg)
    (hsorted : (inputs.map Prod.fst).Sorted (· > ·))
    (hnn : ∀ x ∈ inputs.map Prod.fst, 0 ≤ x) :
    (monitorRun cfg inputs).2.1 = false := by
  have hds' : (0 : ℚ) < (cfg.device_steps : ℚ) := by exact_mod_cast hds
  apply monitor_no_fire_aux cfg inputs hw hr
  · unfold scaledLosses
    have hmm : (inputs.map fun inp => inp.1 / (cfg.device_steps : ℚ)) =
        (inputs.map Prod.fst).map fun y => y / (cfg.device_steps : ℚ) := by
      rw [List.map_map]
      rfl
    rw [hmm]
    exact List.Pairwise.map _
      (fun a b hab => (div_le_div_iff_of_pos_right hds').mpr hab.le) hsorted
  · intro x hx
    unfold scaledLosses at hx
    obtain ⟨y, hy, rfl⟩ := List.mem_map.mp hx
    exact div_nonneg (hnn y.1 (List.mem_map.mpr ⟨y, hy, rfl⟩)) hds'.le

/-- C7 witness: a strictly decreasing nonnegative run of length 2 on a
window of size 2 never fires. -/
theorem monitor_decreasing_not_improving_witness :
    (monitorRun ⟨[2], 1, 1 / 2, 100, 1⟩ [(4, 0), (2, 0)]).2.1 = false :=
  monitor_decreasing_not_improving ⟨[2], 1, 1 / 2, 100, 1⟩ [(4, 0), (2, 0)]
    (by decide) (by decide) (by norm_num) (by decide) (by decide) (by decide)

/-- C8: after every call sequence the three sliding windows (loss history,
accuracy history, loss-median history) have equal length, each capped at the
largest configured window size, and each window is exactly the tail slice of
its full recorded stream — the scaled losses, the scaled top losses and the
per-call window medians respectively — so on overflow the oldest entries of
every window are evicted first. -/
theorem monitor_windows_invariant (cfg : MonitorConfig)
    (inputs : List (ℚ × ℚ)) (hw : 0 < maxSize cfg) :
    ((monitorRun cfg inputs).1.losses.length =
        (monitorRun cfg inputs).1.accuracies.length ∧
      (monitorRun cfg inputs).1.accuracies.length =
        (monitorRun cfg inputs).1.loss_medians.length) ∧
      (monitorRun cfg inputs).1.losses.length ≤ maxSize cfg ∧
      (monitorRun cfg inputs).1.losses =
        pySlice (scaledLosses cfg inputs) (maxSize cfg) ∧
      (monitorRun cfg inputs).1.accuracies =
        pySlice (scaledAccs cfg inputs) (maxSize cfg) ∧
      (monitorRun cfg inputs).1.loss_medians =
        pySlice (medsList (maxSize cfg) (scaledLosses cfg inputs))
          (maxSize cfg) := by
  obtain ⟨hL, hA, hM⟩ := monitorRun_state cfg inputs
  have hlen1 : (scaledLosses cfg inputs).length = inputs.length := by
    unfold scaledLosses
    rw [List.length_map]
  have hlen2 : (scaledAccs cfg inputs).length = inputs.length := by
    unfold scaledAccs
    rw [List.length_map]
  have hlen3 : (medsList (maxSize cfg) (scaledLosses cfg inputs)).length =
      inputs.length := by
    rw [medsList_length, hlen1]
  refine ⟨⟨?_, ?_⟩, ?_, hL, hA, hM⟩
  · rw [hL, hA, pySlice_length _ _ hw, pySlice_length _ _ hw, hlen1, hlen2]
  · rw [hA, hM, pySlice_length _ _ hw, pySlice_length _ _ hw, hlen2, hlen3]
  · rw [hL, pySlice_length _ _ hw, hlen1]
    omega

/-- C8 witness: the invariant after three concrete calls on a window of
size 2. -/
theorem monitor_windows_invariant_witness :
    0 < maxSize ⟨[2], 1, 1 / 2, 100, 1⟩ ∧
      (((monitorRun ⟨[2], 1, 1 / 2, 100, 1⟩ [(3, 0), (2, 0), (1, 0)]).1.losses.length =
          (monitorRun ⟨[2], 1, 1 / 2, 100, 1⟩ [(3, 0), (2, 0), (1, 0)]).1.accuracies.length ∧
        (monitorRun ⟨[2], 1, 1 / 2, 100, 1⟩ [(3, 0), (2, 0), (1, 0)]).1.accuracies.length =
          (monitorRun ⟨[2], 1, 1 / 2, 100, 1⟩ [(3, 0), (2, 0), (1, 0)]).1.loss_medians.length) ∧
      (monitorRun ⟨[2], 1, 1 / 2, 100, 1⟩ [(3, 0), (2, 0), (1, 0)]).1.losses.length ≤
          maxSize ⟨[2], 1, 1 / 2, 100, 1⟩ ∧
      (monitorRun ⟨[2], 1, 1 / 2, 100, 1⟩ [(3, 0), (2, 0), (1, 0)]).1.losses =
          pySlice (scaledLosses ⟨[2], 1, 1 / 2, 100, 1⟩ [(3, 0), (2, 0), (1, 0)])
            (maxSize ⟨[2], 1, 1 / 2, 100, 1⟩) ∧
      (monitorRun ⟨[2], 1, 1 / 2, 100, 1⟩ [(3, 0), (2, 0), (1, 0)]).1.accuracies =
          pySlice (scaledAccs ⟨[2], 1, 1 / 2, 100, 1⟩ [(3, 0), (2, 0), (1, 0)])
            (maxSize ⟨[2], 1, 1 / 2, 100, 1⟩) ∧
      (monitorRun ⟨[2], 1, 1 / 2, 100, 1⟩ [(3, 0), (2, 0), (1, 0)]).1.loss_medians =
          pySlice (medsList (maxSize ⟨[2], 1, 1 / 2, 100, 1⟩)
              (scaledLosses ⟨[2], 1, 1 / 2, 100, 1⟩ [(3, 0), (2, 0), (1, 0)]))
            (maxSize ⟨[2], 1, 1 / 2, 100, 1⟩)) :=
  ⟨by decide,
    monitor_windows_invariant ⟨[2], 1, 1 / 2, 100, 1⟩ [(3, 0), (2, 0), (1, 0)]
      (by decide)⟩
